import Mathlib

/-!
Shallow embedding of the RustyFox reference-element kernel.

Source files embedded here:
* src/geometry/simplex.rs   (Simplex, its constructor and Geometry impl)
* src/element/jacobi.rs     (Jacobi polynomial construction and evaluation)
* src/element/element_traits.rs (IntegrationRule / Element default integrate)

Machine floating point is modelled by exact rational arithmetic; the one place
where a machine integer width decides a claim (the i32 power in the Jacobi
normalizer) is modelled separately with explicit wrap-around on 2 to the 32.
Rust panics (failed slice bounds, failed reshapes) are modelled as Option.none
and Rust Result values as Except.
-/

deriving instance DecidableEq for Except

namespace RustyFox

/-- Embedding of num::integer::binomial as called by the repository: the first
thing num does is return 0 whenever k is greater than n (this includes every
negative n, since the call sites only pass a nonnegative k); otherwise n is
nonnegative and the multiplicative formula computes the usual choose. -/
def numBinomial (n : Int) (k : Nat) : Int :=
  if n < (k : Int) then 0 else (n.toNat.choose k : Int)

/-- The mathematical binomial coefficient for an integer upper argument and a
natural lower argument, with the standard extension to negative upper argument:
choose n k = (-1)^k * choose (k - n - 1) k. In particular choose (-1) 0 = 1. -/
def intChoose (n : Int) (k : Nat) : Int :=
  if 0 ≤ n then (n.toNat.choose k : Int)
  else (-1) ^ k * ((((k : Int) - 1 - n).toNat.choose k : Int))

/-! ## Simplex (src/geometry/simplex.rs) -/

/-- All increasing k-element combinations of a list, in lexicographic order
when the input list is increasing. -/
def combos : Nat → List Nat → List (List Nat)
  | 0, _ => [[]]
  | _ + 1, [] => []
  | k + 1, x :: xs => (combos k xs).map (fun c => x :: c) ++ combos (k + 1) xs

/-- Modelled from the spec: the body of Simplex::compute_adjacency is an empty
TODO stub in the source, and the spec fixes the intended algorithm. Every
element_dim-dimensional face of the n-simplex is an increasing combination of
element_dim + 1 of the vertex indices 0..n, faces ordered lexicographically;
the table for the key (element_dim, target_dim) stores, for each face in that
order, its (target_dim + 1)-subcombinations in lexicographic order, flattened,
each entry an index into the original vertex numbering. The stride is the
per-face entry count. -/
def computeAdjacency (n element_dim target_dim : Nat) : Nat × List Nat :=
  let faces := combos (element_dim + 1) (List.range (n + 1))
  let buffer := (faces.map (fun f => (combos (target_dim + 1) f).flatten)).flatten
  (Nat.choose (element_dim + 1) (target_dim + 1) * (target_dim + 1), buffer)

/-- State of the Rust struct Simplex. The borrowed coordinate slice is a list
over the generic coordinate type; the HashMap is an association list keyed by
(element_dim, target_dim). -/
structure Simplex (CoordType : Type) where
  dimension : Nat
  embedding_dimension : Nat
  points : List CoordType
  connectivity : List ((Nat × Nat) × (Nat × List Nat))
deriving DecidableEq

/-- Simplex::new. The guard is exactly the source guard
(embed_dim < dim || pnts.len() != embed_dim * dim + 1); on success the
connectivity map is filled by the double loop over ied, ted in 0..dim,
each call inserting the (spec-modelled) compute_adjacency table. -/
def Simplex.new {CoordType : Type} (dim embed_dim : Nat) (pnts : List CoordType) :
    Except String (Simplex CoordType) :=
  if embed_dim < dim ∨ pnts.length ≠ embed_dim * dim + 1 then
    .error "Incorherence in the points or the dimensions given to construct the Simplex."
  else
    .ok { dimension := dim, embedding_dimension := embed_dim, points := pnts,
          connectivity :=
            ((List.range dim).map (fun ied =>
              (List.range dim).map (fun ted => ((ied, ted), computeAdjacency dim ied ted)))).flatten }

/-- Simplex::get_number_of_elements from the Geometry impl. -/
def Simplex.get_number_of_elements {CoordType : Type} (s : Simplex CoordType)
    (dimension : Nat) : Nat :=
  if dimension > s.dimension then 0 else Nat.choose (s.dimension + 1) (dimension + 1)

/-- Simplex::get_connectivity from the Geometry impl. The outer Option models a
Rust panic: the source slices conn[element_index*stride .. element_index*(stride+1)],
which panics when the upper bound exceeds the buffer length. The inner Except
carries the two source error strings. -/
def Simplex.get_connectivity {CoordType : Type} (s : Simplex CoordType)
    (target_dim element_dim element_index : Nat) : Option (Except String (List Nat)) :=
  if target_dim > s.dimension ∨ element_dim > s.dimension then
    some (.error "Requested connectivity dimensions are over the topological dimension of the simplex")
  else
    match s.connectivity.lookup (element_dim, target_dim) with
    | none => some (.error "Requested connectivity is not available")
    | some (stride, conn) =>
      if element_index * stride ≤ element_index * (stride + 1) ∧
          element_index * (stride + 1) ≤ conn.length then
        some (.ok ((conn.drop (element_index * stride)).take
          (element_index * (stride + 1) - element_index * stride)))
      else none

/-! ## Jacobi (src/element/jacobi.rs) -/

/-- State of the Rust struct Jacobi. The coefficients are the exact BigInt
values; the normalizer is kept as an exact rational (the idealized value of the
f64 field; its 32-bit computation is modelled separately below where it is the
subject of a claim). -/
structure Jacobi where
  degree : Nat
  alpha : Int
  beta : Int
  coeffs : List Int
  normalizer : ℚ
deriving DecidableEq

/-- Jacobi::new. The guard is the source guard (alpha < -1 || beta < -1);
coefficient k is binomial(degree + alpha, k) * binomial(degree + beta, degree - k)
computed with num BigInt binomial, for k in 0..=degree. -/
def Jacobi.new (degree : Nat) (alpha beta : Int) : Option Jacobi :=
  if alpha < -1 ∨ beta < -1 then none
  else
    some { degree := degree, alpha := alpha, beta := beta,
           coeffs := (List.range (degree + 1)).map (fun k =>
             numBinomial ((degree : Int) + alpha) k * numBinomial ((degree : Int) + beta) (degree - k)),
           normalizer := 1 / 2 ^ degree }

/-- Jacobi::evaluate, in exact arithmetic: the monome list over deg in
0..=degree is zipped with the coefficient list, each pair multiplied (the
coefficient converted to the scalar field once), summed in ascending index
order, and the result multiplied by the stored normalizer. -/
def Jacobi.evaluate (J : Jacobi) (x : ℚ) : ℚ :=
  ((((List.range (J.degree + 1)).map
      (fun deg => (x - 1) ^ (J.degree - deg) * (x + 1) ^ deg)).zip J.coeffs).map
    (fun mc => mc.1 * (mc.2 : ℚ))).sum * J.normalizer

/-! ## Element / IntegrationRule (src/element/element_traits.rs) -/

/-- Dot product of two equal-length lists, as ndarray dot on 1-D views. -/
def dotL (a b : List ℚ) : ℚ := ((a.zip b).map (fun p => p.1 * p.2)).sum

/-- The ndarray product of the (nips, nbases) row-major matrix with a length
nbases vector: entry p is the dot of row p with the vector. -/
def matVec (shapes : List ℚ) (nips nbases : Nat) (values : List ℚ) : List ℚ :=
  (List.range nips).map (fun p => dotL ((shapes.drop (p * nbases)).take nbases) values)

/-- IntegrationRule::integrate: both from_shape reshapes unwrap (panic, i.e.
none, on a length mismatch), then the result is the dot of weights and values. -/
def ruleIntegrate (nips : Nat) (weights values : List ℚ) : Option ℚ :=
  if values.length = nips ∧ weights.length = nips then some (dotL weights values) else none

/-- The data an Element owns that its default integrate reads: the number of
integration points and weights of the owned IntegrationRule, the basis count of
the owned ShapeBasis, and the precomputed flattened (nips, nbases) shape-value
tensor. -/
structure ElementData where
  nips : Nat
  nbases : Nat
  weights : List ℚ
  shapes : List ℚ
deriving DecidableEq

/-- Element::integrate (default method): reshape the precomputed shape tensor
to (nips, nbases) and the values to length nbases (each unwrap panics, i.e.
none, on mismatch), multiply to get the per-quadrature-point values, then call
the owned rule integrate on them. -/
def elementIntegrate (E : ElementData) (values : List ℚ) : Option ℚ :=
  if E.shapes.length = E.nips * E.nbases ∧ values.length = E.nbases then
    ruleIntegrate E.nips E.weights (matVec E.shapes E.nips E.nbases values)
  else none

/-! ## The 32-bit normalizer computation (src/element/jacobi.rs line 53) -/

/-- Two's-complement wrap of an integer into the i32 range. -/
def wrapI32 (z : Int) : Int := (z + 2 ^ 31) % 2 ^ 32 - 2 ^ 31

/-- The value the expression 2_i32.pow(degree) produces under wrapping
semantics. -/
def i32TwoPow (d : Nat) : Int := wrapI32 (2 ^ d)

/-- The i32 power of two overflows when the exact value exceeds i32::MAX;
under overflow checking the construction aborts there. -/
def i32PowOverflows (d : Nat) : Prop := (2 : Int) ^ d > 2 ^ 31 - 1

instance (d : Nat) : Decidable (i32PowOverflows d) := by
  unfold i32PowOverflows; infer_instance

/-- The normalizer 1.0 / (2_i32.pow(degree) as f64) with the i32 power taken
under wrapping semantics (the conversion to f64 and the division by a power of
two are exact, so rational arithmetic is faithful; division by zero yields the
rational zero, standing for the infinite float). -/
def normalizerMachine (d : Nat) : ℚ := 1 / (i32TwoPow d : ℚ)

/-! ## Helper lemmas -/

lemma list_sum_map_range (f : Nat → ℚ) (n : Nat) :
    ((List.range n).map f).sum = ∑ i in Finset.range n, f i := by
  induction n with
  | zero => simp
  | succ n ih => rw [List.range_succ, Finset.sum_range_succ]; simp [ih]

lemma evaluate_mk (d : Nat) (a b : Int) (cs : Nat → Int) (nz : ℚ) (x : ℚ) :
    Jacobi.evaluate ⟨d, a, b, (List.range (d + 1)).map cs, nz⟩ x =
      (∑ k in Finset.range (d + 1), (cs k : ℚ) * ((x - 1) ^ (d - k) * (x + 1) ^ k)) * nz := by
  simp only [Jacobi.evaluate]
  rw [List.zip_map', List.map_map, list_sum_map_range]
  congr 1
  exact Finset.sum_congr rfl (fun k _ => by simp [mul_comm])

lemma new_some (d : Nat) (a b : Int) (ha : -1 ≤ a) (hb : -1 ≤ b) :
    Jacobi.new d a b = some ⟨d, a, b, (List.range (d + 1)).map (fun k =>
      numBinomial ((d : Int) + a) k * numBinomial ((d : Int) + b) (d - k)), 1 / 2 ^ d⟩ := by
  unfold Jacobi.new
  rw [if_neg (by omega : ¬(a < -1 ∨ b < -1))]

lemma new_inv {d : Nat} {a b : Int} {J : Jacobi} (h : Jacobi.new d a b = some J) :
    -1 ≤ a ∧ -1 ≤ b ∧ J = ⟨d, a, b, (List.range (d + 1)).map (fun k =>
      numBinomial ((d : Int) + a) k * numBinomial ((d : Int) + b) (d - k)), 1 / 2 ^ d⟩ := by
  unfold Jacobi.new at h
  split at h
  · exact absurd h (by simp)
  · next hc =>
    push_neg at hc
    injection h with h
    exact ⟨hc.1, hc.2, h.symm⟩

lemma numBinomial_eq_intChoose {n : Int} (k : Nat) (h : 0 ≤ n) :
    numBinomial n k = intChoose n k := by
  unfold numBinomial intChoose
  rw [if_pos h]
  split
  · next hlt =>
    have hnk : n.toNat < k := by omega
    rw [Nat.choose_eq_zero_of_lt hnk]; rfl
  · rfl

lemma numBinomial_zero_of_nonneg {n : Int} (h : 0 ≤ n) : numBinomial n 0 = 1 := by
  unfold numBinomial
  rw [if_neg (by omega)]
  simp

lemma Simplex.new_dim {CoordType : Type} {dim embed_dim : Nat} {pnts : List CoordType}
    {s : Simplex CoordType} (h : Simplex.new dim embed_dim pnts = .ok s) :
    s.dimension = dim := by
  unfold Simplex.new at h
  split at h
  · exact absurd h (by simp)
  · injection h with h
    rw [← h]

/-! ## Claim theorems: Simplex -/

/-- The five-scalar coordinate buffer: the only buffer length Simplex::new
accepts for dimension 2, embedding dimension 2 (embed_dim * dim + 1 = 5). -/
def triPts : List ℚ := [0, 0, 1, 0, 0]

/-- A six-scalar coordinate buffer: three vertices of width two, the length the
spec requires for a triangle embedded in the plane. -/
def triPts6 : List ℚ := [0, 0, 1, 0, 0, 1]

/-- The simplex value Simplex::new(2, 2, triPts) produces. -/
def triSimplex : Simplex ℚ :=
  { dimension := 2, embedding_dimension := 2, points := triPts,
    connectivity :=
      ((List.range 2).map (fun ied =>
        (List.range 2).map (fun ted => ((ied, ted), computeAdjacency 2 ied ted)))).flatten }

/-- A two-scalar coordinate buffer for a one-dimensional simplex on a line
(embed_dim * dim + 1 = 2, which here also equals (dim + 1) * embed_dim). -/
def segPts : List ℚ := [0, 1]

/-- Claim C1, evaluated on the code at the failing input: for the triangle the
element counts are 3, 3, 1 as claimed, but get_connectivity(0, 1, i) returns the
slices conn[i*stride .. i*(stride+1)] of length i — Ok [], Ok [0] and Ok [1, 2]
instead of the claimed pairs (0,1), (0,2), (1,2). -/
theorem simplex_triangle_conn :
    (Simplex.new 2 2 triPts).map (fun s =>
      (s.get_number_of_elements 0, s.get_number_of_elements 1, s.get_number_of_elements 2)) =
      .ok (3, 3, 1) ∧
    (Simplex.new 2 2 triPts).map (fun s =>
      (s.get_connectivity 0 1 0, s.get_connectivity 0 1 1, s.get_connectivity 0 1 2)) =
      .ok (some (.ok []), some (.ok [0]), some (.ok [1, 2])) := by
  exact ⟨by decide, by decide⟩

/-- Claim C2, evaluated on the code at the failing input: Simplex::new(2, 2, _)
rejects the six-scalar buffer holding (dim + 1) vertices of width embed_dim and
accepts the five-scalar buffer, because its guard compares the length with
embed_dim * dim + 1 instead of embed_dim * (dim + 1). -/
theorem simplex_new_wrong_length :
    Simplex.new 2 2 triPts6 =
      (.error "Incorherence in the points or the dimensions given to construct the Simplex." :
        Except String (Simplex ℚ)) ∧
    Simplex.new 2 2 triPts = .ok triSimplex := by
  constructor
  · decide
  · decide

/-- Claim C3, evaluated on the code at the failing input: on the segment
(dimension 1) the in-range query get_connectivity(0, 1, 0) hits the
connectivity-unavailable error, because construction only loops ied, ted over
0..dim (both strictly below the dimension), so the pair (1, 0) is never
computed — and in the raw source compute_adjacency inserts nothing at all. -/
theorem simplex_conn_unavailable :
    (Simplex.new 1 1 segPts).map (fun s => s.get_connectivity 0 1 0) =
      .ok (some (.error "Requested connectivity is not available")) := by
  decide

/-- Claim C4: for every successfully constructed Simplex of dimension n and
every k, get_number_of_elements k is the binomial coefficient
choose (n + 1) (k + 1) when k ≤ n, and the normal value 0 when k > n. -/
theorem simplex_number_of_elements (n m : Nat) (pnts : List ℚ) (s : Simplex ℚ)
    (h : Simplex.new n m pnts = .ok s) (k : Nat) :
    s.get_number_of_elements k = if n < k then 0 else Nat.choose (n + 1) (k + 1) := by
  have hd := Simplex.new_dim h
  unfold Simplex.get_number_of_elements
  rw [hd]

/-- Witness for C4 at the concrete triangle: both a face dimension inside the
range and one beyond it. -/
theorem simplex_number_of_elements_witness :
    Simplex.new 2 2 triPts = .ok triSimplex ∧
    triSimplex.get_number_of_elements 1 = (if 2 < 1 then 0 else Nat.choose 3 2) ∧
    triSimplex.get_number_of_elements 3 = (if 2 < 3 then 0 else Nat.choose 3 4) :=
  ⟨by decide, simplex_number_of_elements 2 2 triPts triSimplex (by decide) 1,
    simplex_number_of_elements 2 2 triPts triSimplex (by decide) 3⟩

/-! ## Claim theorems: Jacobi -/

/-- Claim C8: Jacobi::new returns the invalid-parameter failure (None) exactly
when alpha < -1 or beta < -1, and succeeds otherwise, including at the boundary
values alpha = -1 and beta = -1. -/
theorem jacobi_new_none_iff (d : Nat) (alpha beta : Int) :
    Jacobi.new d alpha beta = none ↔ (alpha < -1 ∨ beta < -1) := by
  unfold Jacobi.new
  split
  · next hc => simpa using hc
  · next hc => simp [hc]

/-- Witness for C8 at a rejected pair and the accepted boundary pair. -/
theorem jacobi_new_none_iff_witness :
    (Jacobi.new 1 (-2) 3 = none ↔ ((-2 : Int) < -1 ∨ (3 : Int) < -1)) ∧
    (Jacobi.new 1 (-1) (-1) = none ↔ ((-1 : Int) < -1 ∨ (-1 : Int) < -1)) :=
  ⟨jacobi_new_none_iff 1 (-2) 3, jacobi_new_none_iff 1 (-1) (-1)⟩

/-- Counterexample to claim C5 as stated: at degree 0, alpha = -1, beta = 0 the
construction succeeds and evaluate 1 is 0, not the binomial coefficient
choose (degree + alpha) degree = choose (-1) 0 = 1, because the num binomial
returns 0 whenever the lower index exceeds the upper one, including choose (-1) 0. -/
theorem jacobi_endpoint_cex :
    (Jacobi.new 0 (-1) 0).map (fun J => J.evaluate 1) ≠
      some ((intChoose ((0 : Int) + (-1)) 0 : Int) : ℚ) := by
  rw [new_some 0 (-1) 0 (by decide) (by decide)]
  simp only [Option.map_some', ne_eq, Option.some.injEq]
  rw [evaluate_mk, Finset.sum_range_one]
  have hc0 : numBinomial (((0 : Nat) : Int) + (-1)) 0 * numBinomial (((0 : Nat) : Int) + 0) (0 - 0) = 0 := by
    decide
  have hi : intChoose ((0 : Int) + (-1)) 0 = 1 := by decide
  rw [hc0, hi]
  norm_num

/-- Claim C5 (amended): for every Jacobi polynomial successfully constructed
with degree d, alpha ≥ -1, beta ≥ -1 such that d + alpha ≥ 0 and d + beta ≥ 0
(all cases except degree 0 with a parameter equal to -1), evaluate 1 equals the
binomial coefficient choose (d + alpha) d and evaluate (-1) equals
(-1)^d * choose (d + beta) d. -/
theorem jacobi_endpoints (d : Nat) (alpha beta : Int) (J : Jacobi)
    (h : Jacobi.new d alpha beta = some J)
    (ha : 0 ≤ (d : Int) + alpha) (hb : 0 ≤ (d : Int) + beta) :
    J.evaluate 1 = ((intChoose ((d : Int) + alpha) d : Int) : ℚ) ∧
    J.evaluate (-1) = (-1) ^ d * ((intChoose ((d : Int) + beta) d : Int) : ℚ) := by
  obtain ⟨-, -, rfl⟩ := new_inv h
  have h2d : (2 : ℚ) ^ d ≠ 0 := by positivity
  constructor
  · rw [evaluate_mk]
    have e0 : (1 : ℚ) - 1 = 0 := by norm_num
    have e2 : (1 : ℚ) + 1 = 2 := by norm_num
    simp only [e0, e2]
    rw [Finset.sum_eq_single_of_mem d (Finset.self_mem_range_succ d) (by
      intro k hk hne
      have hk' : k < d + 1 := Finset.mem_range.mp hk
      have hdk : d - k ≠ 0 := by omega
      rw [zero_pow hdk, zero_mul, mul_zero])]
    simp only [Nat.sub_self, pow_zero, one_mul]
    rw [numBinomial_zero_of_nonneg hb, mul_one, numBinomial_eq_intChoose d ha]
    field_simp
  · rw [evaluate_mk]
    have e0 : (-1 : ℚ) + 1 = 0 := by norm_num
    have e2 : (-1 : ℚ) - 1 = -2 := by norm_num
    simp only [e0, e2]
    rw [Finset.sum_eq_single_of_mem 0 (Finset.mem_range.mpr (by omega)) (by
      intro k hk hne
      rw [zero_pow hne, mul_zero, mul_zero])]
    simp only [Nat.sub_zero, pow_zero, mul_one]
    rw [numBinomial_zero_of_nonneg ha, one_mul, numBinomial_eq_intChoose d hb]
    have en : (-2 : ℚ) ^ d = (-1) ^ d * 2 ^ d := by
      rw [show (-2 : ℚ) = -1 * 2 by norm_num, mul_pow]
    rw [en]
    field_simp
    ring

/-- The Jacobi value Jacobi::new(2, 1, 1) produces (the fixture of the Rust
test test_2_1_1). -/
def jac211 : Jacobi := ⟨2, 1, 1, [3, 9, 3], 1 / 4⟩

lemma jac211_new : Jacobi.new 2 1 1 = some jac211 := by
  rw [new_some 2 1 1 (by decide) (by decide)]
  unfold jac211
  simp only [Option.some.injEq, Jacobi.mk.injEq]
  exact ⟨trivial, trivial, trivial, by decide, by norm_num⟩

/-- Witness for C5 at degree 2, alpha = 1, beta = 1. -/
theorem jacobi_endpoints_witness :
    Jacobi.new 2 1 1 = some jac211 ∧
    jac211.evaluate 1 = ((intChoose (((2 : Nat) : Int) + 1) 2 : Int) : ℚ) :=
  ⟨jac211_new, (jacobi_endpoints 2 1 1 jac211 jac211_new (by decide) (by decide)).1⟩

/-- Claim C6: the symmetry law. For every degree and parameters alpha, beta ≥ -1
and every rational x, evaluating the (degree, alpha, beta) polynomial at -x gives
(-1)^degree times the value of the (degree, beta, alpha) polynomial at x. -/
theorem jacobi_symmetry (d : Nat) (alpha beta : Int) (x : ℚ)
    (ha : -1 ≤ alpha) (hb : -1 ≤ beta) :
    (Jacobi.new d alpha beta).map (fun J => J.evaluate (-x)) =
      (Jacobi.new d beta alpha).map (fun J => (-1) ^ d * J.evaluate x) := by
  rw [new_some d alpha beta ha hb, new_some d beta alpha hb ha]
  simp only [Option.map_some']
  congr 1
  rw [evaluate_mk, evaluate_mk]
  have key : (∑ k in Finset.range (d + 1),
        ((numBinomial ((d : Int) + alpha) k * numBinomial ((d : Int) + beta) (d - k) : Int) : ℚ) *
          ((-x - 1) ^ (d - k) * (-x + 1) ^ k)) =
      (-1 : ℚ) ^ d * ∑ k in Finset.range (d + 1),
        ((numBinomial ((d : Int) + beta) k * numBinomial ((d : Int) + alpha) (d - k) : Int) : ℚ) *
          ((x - 1) ^ (d - k) * (x + 1) ^ k) := by
    rw [← Finset.sum_range_reflect (fun k =>
      ((numBinomial ((d : Int) + beta) k * numBinomial ((d : Int) + alpha) (d - k) : Int) : ℚ) *
        ((x - 1) ^ (d - k) * (x + 1) ^ k)) (d + 1)]
    rw [Finset.mul_sum]
    apply Finset.sum_congr rfl
    intro k hk
    have hkd : k ≤ d := by have := Finset.mem_range.mp hk; omega
    have h1 : d + 1 - 1 - k = d - k := by omega
    have h2 : d - (d - k) = k := by omega
    simp only [h1, h2]
    have hcomm : numBinomial ((d : Int) + beta) (d - k) * numBinomial ((d : Int) + alpha) k =
        numBinomial ((d : Int) + alpha) k * numBinomial ((d : Int) + beta) (d - k) :=
      mul_comm _ _
    rw [hcomm]
    have hm : ((-x - 1 : ℚ)) ^ (d - k) * (-x + 1) ^ k =
        (-1) ^ d * ((x - 1) ^ k * (x + 1) ^ (d - k)) := by
      calc ((-x - 1 : ℚ)) ^ (d - k) * (-x + 1) ^ k
          = (-(x + 1)) ^ (d - k) * (-(x - 1)) ^ k := by
            rw [show (-x - 1 : ℚ) = -(x + 1) from by ring,
              show (-x + 1 : ℚ) = -(x - 1) from by ring]
        _ = ((-1) ^ (d - k) * (x + 1) ^ (d - k)) * ((-1) ^ k * (x - 1) ^ k) := by
            rw [neg_pow (x + 1 : ℚ), neg_pow (x - 1 : ℚ)]
        _ = ((-1 : ℚ) ^ (d - k) * (-1) ^ k) * ((x - 1) ^ k * (x + 1) ^ (d - k)) := by
            ring
        _ = (-1 : ℚ) ^ d * ((x - 1) ^ k * (x + 1) ^ (d - k)) := by
            rw [← pow_add, Nat.sub_add_cancel hkd]
    rw [hm]
    ring
  rw [key]
  ring

/-- Witness for C6 at degree 1, alpha = 0, beta = 1, x = 1/2. -/
theorem jacobi_symmetry_witness :
    ((-1 : Int) ≤ 0 ∧ (-1 : Int) ≤ 1) ∧
    (Jacobi.new 1 0 1).map (fun J => J.evaluate (-(1 / 2))) =
      (Jacobi.new 1 1 0).map (fun J => (-1) ^ 1 * J.evaluate (1 / 2)) :=
  ⟨⟨by decide, by decide⟩, jacobi_symmetry 1 0 1 (1 / 2) (by decide) (by decide)⟩

/-- Counterexample to claim C7 as stated: at degree 0, alpha = 0, beta = -1 the
stored coefficient list is [0], not [choose (0 + 0) 0 * choose (0 - 1) 0] = [1],
because the num binomial returns 0 for choose (-1) 0. -/
theorem jacobi_coeff_cex :
    (Jacobi.new 0 0 (-1)).map (fun J => J.coeffs) ≠
      some [intChoose ((0 : Int) + 0) 0 * intChoose ((0 : Int) + (-1)) (0 - 0)] := by
  decide

/-- Claim C7 (amended): for every Jacobi polynomial successfully constructed
with d + alpha ≥ 0 and d + beta ≥ 0 (all cases except degree 0 with a parameter
equal to -1), the stored coefficient k is the exact integer
choose (d + alpha) k * choose (d + beta) (d - k) for each k in 0..=d, and
evaluate x is the sum over k ascending from 0 to d of
coeff k * (x - 1)^(d - k) * (x + 1)^k, multiplied by 2^(-d). -/
theorem jacobi_coeffs_eval (d : Nat) (alpha beta : Int) (J : Jacobi)
    (h : Jacobi.new d alpha beta = some J)
    (ha : 0 ≤ (d : Int) + alpha) (hb : 0 ≤ (d : Int) + beta) :
    (∀ k, k ≤ d → J.coeffs[k]? =
      some (intChoose ((d : Int) + alpha) k * intChoose ((d : Int) + beta) (d - k))) ∧
    ∀ x : ℚ, J.evaluate x =
      (∑ k in Finset.range (d + 1),
        ((intChoose ((d : Int) + alpha) k * intChoose ((d : Int) + beta) (d - k) : Int) : ℚ) *
          ((x - 1) ^ (d - k) * (x + 1) ^ k)) * (1 / 2 ^ d) := by
  obtain ⟨-, -, rfl⟩ := new_inv h
  constructor
  · intro k hk
    rw [List.getElem?_map, List.getElem?_range (by omega : k < d + 1)]
    rw [Option.map_some']
    rw [numBinomial_eq_intChoose k ha, numBinomial_eq_intChoose (d - k) hb]
  · intro x
    rw [evaluate_mk]
    congr 1
    apply Finset.sum_congr rfl
    intro k _
    rw [numBinomial_eq_intChoose k ha, numBinomial_eq_intChoose (d - k) hb]

/-- Witness for C7 at degree 2, alpha = 1, beta = 1: the middle stored
coefficient. -/
theorem jacobi_coeffs_eval_witness :
    Jacobi.new 2 1 1 = some jac211 ∧
    jac211.coeffs[1]? =
      some (intChoose (((2 : Nat) : Int) + 1) 1 * intChoose (((2 : Nat) : Int) + 1) (2 - 1)) :=
  ⟨jac211_new, (jacobi_coeffs_eval 2 1 1 jac211 jac211_new (by decide) (by decide)).1 1 (by decide)⟩

/-! ## Claim theorems: Element integrate and the 32-bit normalizer -/

/-- Claim C9: for every Element state whose owned data is well formed, integrate
on a value list of length nbases equals the owned rule integrate applied to the
per-quadrature-point values obtained by multiplying the precomputed
(nips, nbases) shape tensor with the values, and integrate on a list of any
other length fails (the reshape unwrap panics) rather than returning a value. -/
theorem element_integrate_spec (E : ElementData) (values : List ℚ)
    (hw : E.weights.length = E.nips) (hs : E.shapes.length = E.nips * E.nbases) :
    (values.length = E.nbases →
      elementIntegrate E values =
        some (dotL E.weights (matVec E.shapes E.nips E.nbases values))) ∧
    (values.length ≠ E.nbases → elementIntegrate E values = none) := by
  constructor
  · intro hv
    unfold elementIntegrate
    rw [if_pos ⟨hs, hv⟩]
    unfold ruleIntegrate
    have hlen : (matVec E.shapes E.nips E.nbases values).length = E.nips := by
      unfold matVec
      rw [List.length_map, List.length_range]
    rw [if_pos ⟨hlen, hw⟩]
  · intro hv
    unfold elementIntegrate
    rw [if_neg (by tauto)]

/-- A concrete two-point, two-basis element: identity shape tensor, weights
1 and 2. -/
def elemEx : ElementData := ⟨2, 2, [1, 2], [1, 0, 0, 1]⟩

/-- Witness for C9 at the concrete element and the value list [3, 4]. -/
theorem element_integrate_spec_witness :
    elemEx.weights.length = elemEx.nips ∧
    elementIntegrate elemEx [3, 4] =
      some (dotL elemEx.weights (matVec elemEx.shapes elemEx.nips elemEx.nbases [3, 4])) :=
  ⟨rfl, (element_integrate_spec elemEx [3, 4] rfl rfl).1 rfl⟩

/-- Claim C10: the stored normalizer is computed by exponentiating the 32-bit
integer 2, so it equals 2^(-degree) exactly when degree ≤ 30; the power
overflows the i32 range exactly for degree ≥ 31, and there the produced
normalizer is never the correct 2^(-degree) (under overflow checking the
construction aborts instead), even though the constructor accepts every
degree. -/
theorem normalizer_overflow (d : Nat) :
    (i32PowOverflows d ↔ 31 ≤ d) ∧
    (d ≤ 30 → normalizerMachine d = 1 / 2 ^ d) ∧
    (31 ≤ d → normalizerMachine d ≠ 1 / 2 ^ d) ∧
    (Jacobi.new d 0 0).isSome = true := by
  have h30 : (2 : Int) ^ 30 = 1073741824 := by norm_num
  have h31 : (2 : Int) ^ 31 = 2147483648 := by norm_num
  have h32 : (2 : Int) ^ 32 = 4294967296 := by norm_num
  refine ⟨?_, ?_, ?_, ?_⟩
  · constructor
    · intro hgt
      by_contra hlt
      push_neg at hlt
      have hle : (2 : Int) ^ d ≤ 2 ^ 30 := pow_le_pow_right₀ (by norm_num) (by omega)
      unfold i32PowOverflows at hgt
      omega
    · intro hd
      have hge : (2 : Int) ^ 31 ≤ 2 ^ d := pow_le_pow_right₀ (by norm_num) hd
      unfold i32PowOverflows
      omega
  · intro hd
    unfold normalizerMachine i32TwoPow wrapI32
    have hpos : (0 : Int) ≤ 2 ^ d + 2 ^ 31 := by positivity
    have hlt : (2 : Int) ^ d + 2 ^ 31 < 2 ^ 32 := by
      have hle : (2 : Int) ^ d ≤ 2 ^ 30 := pow_le_pow_right₀ (by norm_num) hd
      omega
    rw [Int.emod_eq_of_lt hpos hlt]
    have : (2 : Int) ^ d + 2 ^ 31 - 2 ^ 31 = 2 ^ d := by ring
    rw [this]
    push_cast
    rfl
  · intro hd
    rcases Nat.eq_or_lt_of_le hd with h | h
    · rw [← h]
      unfold normalizerMachine i32TwoPow wrapI32
      have hmod : ((2 : Int) ^ 31 + 2 ^ 31) % 2 ^ 32 - 2 ^ 31 = -2 ^ 31 := by
        have : (2 : Int) ^ 31 + 2 ^ 31 = 2 ^ 32 := by norm_num
        rw [this]
        omega
      rw [hmod]
      intro hcontra
      have hpos : (0 : ℚ) < 1 / 2 ^ 31 := by positivity
      rw [← hcontra] at hpos
      norm_num at hpos
    · have h32le : 32 ≤ d := h
      have hz : i32TwoPow d = 0 := by
        unfold i32TwoPow wrapI32
        have hsplit : (2 : Int) ^ d = 2 ^ 32 * 2 ^ (d - 32) := by
          rw [← pow_add]
          congr 1
          omega
        rw [hsplit, add_comm, Int.add_mul_emod_self_left]
        have : ((2 : Int) ^ 31) % 2 ^ 32 = 2 ^ 31 := Int.emod_eq_of_lt (by positivity) (by omega)
        omega
      unfold normalizerMachine
      rw [hz]
      intro hcontra
      have hpos : (0 : ℚ) < 1 / 2 ^ d := by positivity
      rw [← hcontra] at hpos
      norm_num at hpos
  · unfold Jacobi.new
    rw [if_neg (by omega)]
    rfl

/-- Witness for C10 at the largest exact degree 30 and the first overflowing
degree 31. -/
theorem normalizer_overflow_witness :
    ((30 : Nat) ≤ 30 ∧ normalizerMachine 30 = 1 / 2 ^ 30) ∧
    ((31 : Nat) ≤ 31 ∧ normalizerMachine 31 ≠ 1 / 2 ^ 31) :=
  ⟨⟨by decide, (normalizer_overflow 30).2.1 (by decide)⟩,
    ⟨by decide, (normalizer_overflow 31).2.2.1 (by decide)⟩⟩

end RustyFox
